import Mathlib

/-!
Shallow embedding of the gitstats commit-statistics engine
(src/gitstats/parser.py and src/gitstats/cli.py) together with proofs of
the specification claims about it.

Modelling conventions:
* A commit timestamp carries an absolute instant `utc` (aware datetimes
  compare by absolute time, which is what the chronological sort in
  `get_commit_stats` uses) and the local wall-clock parts `naive`
  (what `.date()`, `.weekday()`, `.hour` and the tz-stripped comparisons
  in the date filter see).  Calendar dates are proleptic ordinal day
  numbers (`Int`), with day 1 being a Monday as in Python's ordinal.
* Percentages are modelled exactly, in `ℚ`.
* Python strings are `List Char`; `str.lower` is a character-wise map.
* The evaluation-time clock date `date.today()` is an explicit `today`
  argument of `get_commit_streaks` and of the CLI driver.
* `runStats` models the `stats` command of cli.py after argument
  validation: `src = none` stands for "not a git repository / git log
  failed", the date bounds arrive as already parsed calendar days.
-/

namespace GitStats

/-- Local wall-clock parts of a timestamp as seen after Python's
`replace` dropping tzinfo: the ordinal calendar day, the hour of day, and
the remaining sub-hour instant (minutes/seconds/microseconds collapsed
into one lexicographic component). -/
structure NaiveTime where
  day : Int
  hour : Fin 24
  sub : Nat
deriving DecidableEq

/-- A timezone-aware point in time: `utc` is the absolute instant used
when two aware datetimes are compared, `naive` the local wall-clock
parts. -/
structure Timestamp where
  utc : Int
  naive : NaiveTime
deriving DecidableEq

/-- One parsed commit record (hash, author name, author email, date),
mirroring the dicts built in `get_commit_stats`. -/
structure Commit where
  hash : List Char
  author : List Char
  email : List Char
  date : Timestamp
deriving DecidableEq

/-- The local calendar date of a commit, i.e. `commit["date"].date()`. -/
def dayOf (c : Commit) : Int := c.date.naive.day

/-- The multiset of local calendar dates of a commit list. -/
def commitDays (commits : List Commit) : List Int := commits.map dayOf

/-- `datetime.weekday()`: 0 = Monday … 6 = Sunday, determined by the
local calendar day (ordinal day 1 is a Monday). -/
def weekday (t : Timestamp) : Nat := ((t.naive.day - 1) % 7).toNat

/-! ### Author statistics (`get_author_stats`) -/

/-- One entry of the per-author statistics list. -/
structure AuthorStat where
  author : List Char
  commits : Nat
  percentage : ℚ
deriving DecidableEq

/-- One `Counter` update: increment the entry of key `a`, appending a new
entry at the end when the key is new (Python dicts preserve insertion
order). -/
def bumpCount (a : List Char) : List (List Char × Nat) → List (List Char × Nat)
  | [] => [(a, 1)]
  | p :: rest => if p.1 = a then (p.1, p.2 + 1) :: rest else p :: bumpCount a rest

/-- `Counter(commit["author"] for commit in commits)` as an insertion
ordered association list. -/
def authorCounts (commits : List Commit) : List (List Char × Nat) :=
  commits.foldl (fun acc c => bumpCount c.author acc) []

/-- Stable descending insertion by count: the new element goes after all
existing elements with a count ≥ its own, as in Python's stable
`sorted(..., reverse=True)`. -/
def insDesc (x : List Char × Nat) : List (List Char × Nat) → List (List Char × Nat)
  | [] => [x]
  | y :: ys => if y.2 < x.2 then x :: y :: ys else y :: insDesc x ys

/-- `Counter.most_common()`: the items sorted by count descending, ties
kept in insertion (first-seen) order. -/
def sortDescByCount (l : List (List Char × Nat)) : List (List Char × Nat) :=
  l.foldl (fun acc x => insDesc x acc) []

/-- `get_author_stats` from parser.py. -/
def get_author_stats (commits : List Commit) : List AuthorStat :=
  (sortDescByCount (authorCounts commits)).map fun p =>
    { author := p.1, commits := p.2,
      percentage := (p.2 : ℚ) / (commits.length : ℚ) * 100 }

/-! ### Temporal activity (`get_weekly_activity`, `get_hourly_activity`) -/

/-- One weekday bucket. -/
structure DayStat where
  day : String
  commits : Nat
  percentage : ℚ
deriving DecidableEq

/-- One hour-of-day bucket. -/
structure HourStat where
  hour : Nat
  commits : Nat
  percentage : ℚ
deriving DecidableEq

/-- The fixed Monday-first weekday labels. -/
def dayNames : List String := ["Mon", "Tue", "Wed", "Thu", "Fri", "Sat", "Sun"]

/-- `get_weekly_activity` from parser.py: seven buckets indexed 0..6. -/
def get_weekly_activity (commits : List Commit) : List DayStat :=
  (List.range 7).map fun i =>
    { day := dayNames.getD i "",
      commits := commits.countP (fun c => weekday c.date == i),
      percentage :=
        if commits.length = 0 then 0
        else (commits.countP (fun c => weekday c.date == i) : ℚ) / (commits.length : ℚ) * 100 }

/-- `get_hourly_activity` from parser.py: 24 buckets indexed 0..23. -/
def get_hourly_activity (commits : List Commit) : List HourStat :=
  (List.range 24).map fun h =>
    { hour := h,
      commits := commits.countP (fun c => c.date.naive.hour.val == h),
      percentage :=
        if commits.length = 0 then 0
        else (commits.countP (fun c => c.date.naive.hour.val == h) : ℚ) / (commits.length : ℚ) * 100 }

/-! ### Streaks (`get_commit_streaks`) -/

/-- Insertion into a strictly sorted list of dates, skipping duplicates;
folding it over a list yields `sorted(set(l))`. -/
def insSet (x : Int) : List Int → List Int
  | [] => [x]
  | y :: ys => if x < y then x :: y :: ys else if x = y then y :: ys else y :: insSet x ys

/-- `sorted({...})`: the distinct elements in strictly increasing order. -/
def sortedDates (l : List Int) : List Int := l.foldr insSet []

/-- The distinct active calendar dates of a commit list, ascending. -/
def activeDates (commits : List Commit) : List Int :=
  sortedDates (commitDays commits)

/-- The run-length walk of `get_commit_streaks`: `prev` is the previous
date consumed, `cur` the length of the run currently open; a gap of
exactly one day extends the run, anything else closes it. -/
def runsFrom : Int → Nat → List Int → List Nat
  | _, cur, [] => [cur]
  | prev, cur, d :: ds =>
    if d - prev = 1 then runsFrom d (cur + 1) ds else cur :: runsFrom d 1 ds

/-- The list of streak lengths of a sorted distinct date list. -/
def runs : List Int → List Nat
  | [] => []
  | d :: ds => runsFrom d 1 ds

/-- `max(streaks) if streaks else 0` for natural numbers. -/
def listMax (l : List Nat) : Nat := l.foldr max 0

/-- The dictionary returned by `get_commit_streaks`; `last_commit_date`
is `none` when the key is absent (empty input). -/
structure StreakInfo where
  current_streak : Nat
  longest_streak : Nat
  total_active_days : Nat
  last_commit_date : Option Int
deriving DecidableEq

/-- `get_commit_streaks` from parser.py, with the evaluation-time clock
date `today` made explicit. -/
def get_commit_streaks (today : Int) (commits : List Commit) : StreakInfo :=
  if commits.isEmpty then
    { current_streak := 0, longest_streak := 0, total_active_days := 0,
      last_commit_date := none }
  else
    match activeDates commits with
    | [] =>
      { current_streak := 0, longest_streak := 0, total_active_days := 0,
        last_commit_date := none }
    | d0 :: rest =>
      { current_streak :=
          if today - rest.getLastD d0 ≤ 1 then (runsFrom d0 1 rest).getLastD 0 else 0,
        longest_streak := listMax (runsFrom d0 1 rest),
        total_active_days := (d0 :: rest).length,
        last_commit_date := some (rest.getLastD d0) }

/-! ### CLI filters (`_filter_commits_by_author`, `_filter_commits_by_date`) -/

/-- Does `needle` occur as a leading segment of `hay`? -/
def leadMatch : List Char → List Char → Bool
  | [], _ => true
  | _ :: _, [] => false
  | a :: as, b :: bs => a == b && leadMatch as bs

/-- Python's `needle in hay` substring test. -/
def containsSub : List Char → List Char → Bool
  | [], needle => needle.isEmpty
  | c :: t, needle => leadMatch needle (c :: t) || containsSub t needle

/-- `str.lower()`, character-wise. -/
def lowerStr (s : List Char) : List Char := s.map Char.toLower

/-- `_filter_commits_by_author` from cli.py: case-insensitive substring
match anywhere in the author name. -/
def filter_commits_by_author (commits : List Commit) (author : List Char) : List Commit :=
  commits.filter fun c => containsSub (lowerStr c.author) (lowerStr author)

/-- Lexicographic `≤` on naive local datetimes. -/
def naiveLeb (a b : NaiveTime) : Bool :=
  decide (a.day < b.day) ||
    (decide (a.day = b.day) &&
      (decide (a.hour.val < b.hour.val) ||
        (decide (a.hour.val = b.hour.val) && decide (a.sub ≤ b.sub))))

/-- Lexicographic `<` on naive local datetimes. -/
def naiveLtb (a b : NaiveTime) : Bool :=
  decide (a.day < b.day) ||
    (decide (a.day = b.day) &&
      (decide (a.hour.val < b.hour.val) ||
        (decide (a.hour.val = b.hour.val) && decide (a.sub < b.sub))))

/-- The naive midnight datetime `strptime(s, "%Y-%m-%d")` produces for a
calendar day. -/
def fromYMD (d : Int) : NaiveTime := { day := d, hour := 0, sub := 0 }

/-- `+ timedelta(days=1)` on a naive datetime. -/
def addDay (t : NaiveTime) : NaiveTime := { day := t.day + 1, hour := t.hour, sub := t.sub }

/-- `_filter_commits_by_date` from cli.py: optional inclusive naive lower
bound, optional strict upper bound at `until + 1 day`. -/
def filter_commits_by_date (commits : List Commit)
    (since_date until_date : Option NaiveTime) : List Commit :=
  let f1 :=
    match since_date with
    | none => commits
    | some s => commits.filter fun c => naiveLeb s c.date.naive
  match until_date with
  | none => f1
  | some u => f1.filter fun c => naiveLtb c.date.naive (addDay u)

/-- The date-filter predicate: conjunction of the supplied date bounds. -/
def keepD (s u : Option NaiveTime) (c : Commit) : Bool :=
  (match s with | none => true | some sd => naiveLeb sd c.date.naive) &&
  (match u with | none => true | some ud => naiveLtb c.date.naive (addDay ud))

/-- The full filter-stage predicate: conjunction of all supplied
predicates (date bounds and author substring). -/
def keepC (s u : Option NaiveTime) (a : Option (List Char)) (c : Commit) : Bool :=
  keepD s u c &&
  (match a with | none => true | some x => containsSub (lowerStr c.author) (lowerStr x))

/-- The filter stage as composed in cli.py: date filter first, then the
author filter when an author substring is given. -/
def filterPipeline (commits : List Commit) (s u : Option NaiveTime)
    (a : Option (List Char)) : List Commit :=
  match a with
  | none => filter_commits_by_date commits s u
  | some x => filter_commits_by_author (filter_commits_by_date commits s u) x

/-! ### The `stats` command (cli.py) -/

/-- Stable ascending insertion by absolute time. -/
def insAsc (x : Commit) : List Commit → List Commit
  | [] => [x]
  | y :: ys => if x.date.utc < y.date.utc then x :: y :: ys else y :: insAsc x ys

/-- `commits.sort(key=lambda x: x["date"])`: stable chronological sort. -/
def sortByDate (l : List Commit) : List Commit :=
  l.foldl (fun acc x => insAsc x acc) []

/-- The dictionary returned by `get_commit_stats` (the pure part, after
the git subprocess and line parsing). -/
structure StatsData where
  total_commits : Nat
  total_authors : Nat
  first_commit : Int
  last_commit : Int
  commits : List Commit
  author_stats : List AuthorStat

/-- `get_commit_stats` on an already parsed record list: `none` when the
repository has no commits, otherwise the statistics over the
chronologically sorted list.  `first_commit`/`last_commit` hold the
calendar day rendered by `strftime("%Y-%m-%d")`. -/
def get_commit_stats (parsed : List Commit) : Option StatsData :=
  match sortByDate parsed with
  | [] => none
  | c :: rest =>
    some { total_commits := (c :: rest).length,
           total_authors := (parsed.map (·.author)).dedup.length,
           first_commit := c.date.naive.day,
           last_commit := (rest.getLastD c).date.naive.day,
           commits := c :: rest,
           author_stats := get_author_stats (c :: rest) }

/-- `get_commit_stats` including the "not a repository / git failure"
case (`src = none`). -/
def get_commit_stats_opt (src : Option (List Commit)) : Option StatsData :=
  src.bind get_commit_stats

/-- Python truthiness of the `--author` option: `None` and the empty
string both disable the author filter. -/
def authorTruthy (author : Option (List Char)) : Option (List Char) :=
  match author with
  | none => none
  | some a => if a.isEmpty then none else some a

/-- Was at least one filter applied (`filters_applied` nonempty)? -/
def filtersOnB (s u : Option NaiveTime) (a : Option (List Char)) : Bool :=
  s.isSome || u.isSome || (authorTruthy a).isSome

/-- The commit list after the conditional filtering in `stats`. -/
def filterStage (commits : List Commit) (s u : Option NaiveTime)
    (a : Option (List Char)) : List Commit :=
  let cs1 :=
    if s.isSome || u.isSome then filter_commits_by_date commits s u else commits
  match authorTruthy a with
  | none => cs1
  | some x => filter_commits_by_author cs1 x

/-- `author_stats[:top] if top else author_stats` (`top = 0` is falsy and
keeps the whole list). -/
def takeTop (top : Option Nat) (l : List AuthorStat) : List AuthorStat :=
  match top with
  | none => l
  | some 0 => l
  | some t => l.take t

/-- The statistics snapshot assembled by the `stats` command (the fields
of its JSON output that derive from the record set). -/
structure Snapshot where
  total_commits : Nat
  total_authors : Nat
  first_commit : Int
  last_commit : Int
  authors : List AuthorStat
  streaks : StreakInfo
  weekly_activity : List DayStat
  hourly_activity : List HourStat

/-- Outcome of the `stats` command: a process exit with an error message,
or a statistics snapshot. -/
inductive CliResult where
  | error (exitCode : Nat) (msg : String)
  | ok (snap : Snapshot)

/-- The error message used when the target has no commits or is not a
git repository. -/
def msgNoRepo : String := "No commits found or not a git repository."

/-- The error message used when filters were supplied and no commit
matches them. -/
def msgNoMatch : String := "No commits found matching the specified filters"

/-- The dict update performed by `stats` when filters were applied:
every statistics field is recomputed from the filtered list. -/
def recomputeStats (sd : StatsData) (cs2 : List Commit) : StatsData :=
  match cs2 with
  | [] => sd
  | c :: rest =>
    { sd with commits := c :: rest,
              total_commits := (c :: rest).length,
              total_authors := ((c :: rest).map (·.author)).dedup.length,
              first_commit := c.date.naive.day,
              last_commit := (rest.getLastD c).date.naive.day,
              author_stats := get_author_stats (c :: rest) }

/-- Assembly of the output snapshot from the (possibly recomputed)
statistics record. -/
def buildSnapshot (today : Int) (top : Option Nat) (sd : StatsData) : Snapshot :=
  { total_commits := sd.total_commits,
    total_authors := sd.total_authors,
    first_commit := sd.first_commit,
    last_commit := sd.last_commit,
    authors := takeTop top sd.author_stats,
    streaks := get_commit_streaks today sd.commits,
    weekly_activity := get_weekly_activity sd.commits,
    hourly_activity := get_hourly_activity sd.commits }

/-- The `stats` command of cli.py after argument validation. -/
def runStats (src : Option (List Commit)) (since_date until_date : Option NaiveTime)
    (author : Option (List Char)) (top : Option Nat) (today : Int) : CliResult :=
  match get_commit_stats_opt src with
  | none => .error 1 msgNoRepo
  | some sd =>
    if filtersOnB since_date until_date author &&
        (filterStage sd.commits since_date until_date author).isEmpty then
      .error 1 msgNoMatch
    else
      .ok (buildSnapshot today top
        (if filtersOnB since_date until_date author then
          recomputeStats sd (filterStage sd.commits since_date until_date author)
        else sd))

/-- Index of the first commit by a given author. -/
def firstIdx (commits : List Commit) (a : List Char) : Nat :=
  commits.findIdx (fun c => c.author == a)

/-! ### Statement predicates for the claims -/

/-- Consistency of a snapshot with a single filtered record sequence
`fcs`: every field is the corresponding statistic of `fcs`, first/last
commit are chronological extremes of `fcs`, and all percentages have
denominator `fcs.length`. -/
def SnapshotConsistent (today : Int) (top : Option Nat) (fcs : List Commit)
    (snap : Snapshot) : Prop :=
  snap.total_commits = fcs.length ∧
  snap.total_authors = (fcs.map (·.author)).dedup.length ∧
  snap.authors = takeTop top (get_author_stats fcs) ∧
  snap.streaks = get_commit_streaks today fcs ∧
  snap.weekly_activity = get_weekly_activity fcs ∧
  snap.hourly_activity = get_hourly_activity fcs ∧
  (∃ c ∈ fcs, snap.first_commit = c.date.naive.day ∧
    ∀ c' ∈ fcs, c.date.utc ≤ c'.date.utc) ∧
  (∃ c ∈ fcs, snap.last_commit = c.date.naive.day ∧
    ∀ c' ∈ fcs, c'.date.utc ≤ c.date.utc) ∧
  (∀ st ∈ snap.authors, st.percentage = (st.commits : ℚ) / (fcs.length : ℚ) * 100) ∧
  (∀ b ∈ snap.weekly_activity, b.percentage = (b.commits : ℚ) / (fcs.length : ℚ) * 100) ∧
  (∀ b ∈ snap.hourly_activity, b.percentage = (b.commits : ℚ) / (fcs.length : ℚ) * 100)

/-- Behaviour of `current_streak`: the reported last active date, the
"active" case (`today - last ≤ 1`) where the value is exactly the length
of the last run of consecutive active dates, the "broken" case, and the
independence of `longest_streak` from the clock. -/
def CurrentStreakOk (today : Int) (commits : List Commit) : Prop :=
  ∃ last, (get_commit_streaks today commits).last_commit_date = some last ∧
    (today - last ≤ 1 →
      1 ≤ (get_commit_streaks today commits).current_streak ∧
      (∀ i : Nat, i < (get_commit_streaks today commits).current_streak →
        (last - (i : ℤ)) ∈ commitDays commits) ∧
      (last - ((get_commit_streaks today commits).current_streak : ℤ)) ∉ commitDays commits) ∧
    (1 < today - last → (get_commit_streaks today commits).current_streak = 0) ∧
    (∀ t2 : Int,
      (get_commit_streaks t2 commits).longest_streak =
        (get_commit_streaks today commits).longest_streak)

/-- Build a commit with the given author and day (hour 0, absolute time
equal to the day number); used to state concrete instances. -/
def mkCommit (a : List Char) (d : Int) : Commit :=
  { hash := [], author := a, email := [],
    date := { utc := d, naive := { day := d, hour := 0, sub := 0 } } }

/-- `longest_streak` is the maximum length of a run of consecutive
active calendar dates, `total_active_days` the number of distinct dates;
including the spec's concrete instances on dates D, D+1, D+2 and D, D+2. -/
def LongestStreakOk (today : Int) (commits : List Commit) : Prop :=
  ((get_commit_streaks today commits).longest_streak = 0 ∨
    ∃ d : ℤ, ∀ i : Nat, i < (get_commit_streaks today commits).longest_streak →
      (d + (i : ℤ)) ∈ commitDays commits) ∧
  (∀ (n : Nat) (d : ℤ),
    (∀ i : Nat, i < n → (d + (i : ℤ)) ∈ commitDays commits) →
    n ≤ (get_commit_streaks today commits).longest_streak) ∧
  (get_commit_streaks today commits).total_active_days = (commitDays commits).toFinset.card ∧
  (get_commit_streaks today [mkCommit [] 0, mkCommit [] 1, mkCommit [] 2]).longest_streak = 3 ∧
  (get_commit_streaks today [mkCommit [] 0, mkCommit [] 2]).longest_streak = 1 ∧
  (runs (activeDates [mkCommit [] 0, mkCommit [] 2])).length = 2

/-- Full specification of `get_author_stats` on a non-empty input: one
entry per distinct author with its exact occurrence count, exact
percentages against the input length, counts summing to the input
length, ranked descending by count, non-empty. -/
def AuthorStatsOk (commits : List Commit) : Prop :=
  get_author_stats commits ≠ [] ∧
  ((get_author_stats commits).map (·.commits)).sum = commits.length ∧
  List.Pairwise (fun s t => t.commits ≤ s.commits) (get_author_stats commits) ∧
  ((get_author_stats commits).map (·.author)).Nodup ∧
  (∀ a, a ∈ (get_author_stats commits).map (·.author) ↔ a ∈ commits.map (·.author)) ∧
  (∀ st ∈ get_author_stats commits,
    st.commits = commits.countP (fun c => c.author == st.author)) ∧
  (∀ st ∈ get_author_stats commits,
    st.percentage = (st.commits : ℚ) / (commits.length : ℚ) * 100)

/-- Specification of the two temporal bucketings: fixed labels in fixed
order (so all buckets are present), counts summing to the input length,
and zero percentages (not an error) on empty input. -/
def WeeklyHourlyOk (commits : List Commit) : Prop :=
  ((get_weekly_activity commits).map (·.day)) =
    ["Mon", "Tue", "Wed", "Thu", "Fri", "Sat", "Sun"] ∧
  ((get_hourly_activity commits).map (·.hour)) = List.range 24 ∧
  ((get_weekly_activity commits).map (·.commits)).sum = commits.length ∧
  ((get_hourly_activity commits).map (·.commits)).sum = commits.length ∧
  (commits = [] →
    (∀ b ∈ get_weekly_activity commits, b.percentage = 0) ∧
    (∀ b ∈ get_hourly_activity commits, b.percentage = 0))

/-- The invariants of the streak summary: counter ordering, bounds, the
last active date being the maximum commit date, and the all-zero result
on empty input. -/
def StreakInvariantsOk (today : Int) (commits : List Commit) : Prop :=
  (get_commit_streaks today commits).current_streak ≤
    (get_commit_streaks today commits).longest_streak ∧
  (get_commit_streaks today commits).longest_streak ≤
    (get_commit_streaks today commits).total_active_days ∧
  (commits ≠ [] →
    1 ≤ (get_commit_streaks today commits).longest_streak ∧
    ∃ last, (get_commit_streaks today commits).last_commit_date = some last ∧
      (∃ c ∈ commits, dayOf c = last) ∧ (∀ c ∈ commits, dayOf c ≤ last)) ∧
  (commits = [] →
    get_commit_streaks today commits =
      { current_streak := 0, longest_streak := 0, total_active_days := 0,
        last_commit_date := none })

/-- An empty snapshot, used only as the dead branch of `okSnap`. -/
def emptySnapshot : Snapshot :=
  { total_commits := 0, total_authors := 0, first_commit := 0, last_commit := 0,
    authors := [],
    streaks := { current_streak := 0, longest_streak := 0, total_active_days := 0,
                 last_commit_date := none },
    weekly_activity := [], hourly_activity := [] }

/-- Projection of a successful CLI outcome. -/
def okSnap : CliResult → Snapshot
  | .ok s => s
  | .error _ _ => emptySnapshot

/-! ### Generic list lemmas -/

theorem getLastD_mem_cons {α : Type _} : ∀ (l : List α) (c : α), l.getLastD c ∈ c :: l
  | [], c => by simp
  | d :: l', c => by
    rw [List.getLastD_cons]
    exact List.mem_cons_of_mem _ (getLastD_mem_cons l' d)

theorem getLastD_key_max {α : Type _} (f : α → ℤ) :
    ∀ (l : List α) (c : α), List.Pairwise (fun a b => f a ≤ f b) (c :: l) →
      ∀ x ∈ c :: l, f x ≤ f (l.getLastD c) := by
  intro l
  induction l with
  | nil =>
    intro c _ x hx
    rcases List.mem_cons.mp hx with rfl | hx'
    · exact le_refl _
    · simp at hx'
  | cons d l' ih =>
    intro c hp x hx
    rw [List.getLastD_cons]
    rcases List.mem_cons.mp hx with rfl | hx'
    · exact (List.pairwise_cons.mp hp).1 _ (getLastD_mem_cons l' d)
    · exact ih d (List.pairwise_cons.mp hp).2 x hx'

theorem getLastD_indep {α : Type _} (l : List α) (a b : α) (h : l ≠ []) :
    l.getLastD a = l.getLastD b := by
  cases l with
  | nil => exact absurd rfl h
  | cons x t => rw [List.getLastD_cons, List.getLastD_cons]

theorem le_listMax : ∀ (l : List Nat), ∀ x ∈ l, x ≤ listMax l := by
  intro l
  induction l with
  | nil => simp
  | cons y ys ih =>
    intro x hx
    rcases List.mem_cons.mp hx with rfl | h
    · exact Nat.le_max_left _ _
    · exact Nat.le_trans (ih x h) (Nat.le_max_right _ _)

theorem listMax_mem_or : ∀ (l : List Nat), listMax l ∈ l ∨ listMax l = 0 := by
  intro l
  induction l with
  | nil => exact Or.inr rfl
  | cons y ys ih =>
    show max y (listMax ys) ∈ y :: ys ∨ max y (listMax ys) = 0
    rcases Nat.le_total (listMax ys) y with h | h
    · rw [Nat.max_eq_left h]; exact Or.inl (List.mem_cons_self _ _)
    · rw [Nat.max_eq_right h]
      rcases ih with hm | hz
      · exact Or.inl (List.mem_cons_of_mem _ hm)
      · exact Or.inr hz

theorem sum_map_add (r : List Nat) (f g : Nat → Nat) :
    (r.map (fun i => f i + g i)).sum = (r.map f).sum + (r.map g).sum := by
  induction r with
  | nil => simp
  | cons a t ih => simp [ih]; omega

theorem indicator_sum_zero (k : Nat) :
    ∀ n : Nat, n ≤ k →
      ((List.range n).map (fun i => if k == i then 1 else 0)).sum = 0 := by
  intro n
  induction n with
  | zero => simp
  | succ m ih =>
    intro h
    rw [List.range_succ, List.map_append, List.sum_append, ih (by omega)]
    have hne : ¬ k = m := by omega
    simp [hne]

theorem indicator_sum_one (k : Nat) :
    ∀ n : Nat, k < n →
      ((List.range n).map (fun i => if k == i then 1 else 0)).sum = 1 := by
  intro n
  induction n with
  | zero => omega
  | succ m ih =>
    intro h
    rw [List.range_succ, List.map_append, List.sum_append]
    rcases Nat.lt_or_ge k m with h' | h'
    · rw [ih h']
      have hne : ¬ k = m := by omega
      simp [hne]
    · have hk : k = m := by omega
      subst hk
      rw [indicator_sum_zero k k (le_refl _)]
      simp

theorem findIdx_append_none {α : Type _} (p : α → Bool) :
    ∀ (l1 l2 : List α), (∀ x ∈ l1, p x = false) →
      (l1 ++ l2).findIdx p = l1.length + l2.findIdx p := by
  intro l1
  induction l1 with
  | nil => simp
  | cons a t ih =>
    intro l2 h
    rw [List.cons_append, List.findIdx_cons]
    have ha : p a = false := h a (List.mem_cons_self _ _)
    rw [ha]
    simp only [cond_false]
    rw [ih l2 (fun x hx => h x (List.mem_cons_of_mem _ hx))]
    simp [List.length_cons]
    omega

theorem findIdx_append_lt {α : Type _} (p : α → Bool) :
    ∀ (l1 l2 : List α), (∃ x ∈ l1, p x = true) →
      (l1 ++ l2).findIdx p < l1.length := by
  intro l1
  induction l1 with
  | nil => simp
  | cons a t ih =>
    intro l2 h
    rw [List.cons_append, List.findIdx_cons]
    by_cases ha : p a
    · simp [ha]
    · have ha' : p a = false := by simpa using ha
      rw [ha']
      simp only [cond_false, List.length_cons]
      rcases h with ⟨x, hx, hpx⟩
      rcases List.mem_cons.mp hx with rfl | hx'
      · exact absurd hpx (by simp [ha'])
      · have := ih l2 ⟨x, hx', hpx⟩
        omega

/-! ### Lemmas about `sortedDates` -/

theorem mem_insSet : ∀ (l : List Int) (x y : Int), y ∈ insSet x l ↔ y = x ∨ y ∈ l := by
  intro l
  induction l with
  | nil => intro x y; simp [insSet]
  | cons z zs ih =>
    intro x y
    simp only [insSet]
    split_ifs with h1 h2
    · simp [List.mem_cons]
    · subst h2; simp [List.mem_cons]
    · simp only [List.mem_cons, ih x y]
      tauto

theorem pairwise_insSet : ∀ (l : List Int) (x : Int),
    List.Pairwise (· < ·) l → List.Pairwise (· < ·) (insSet x l) := by
  intro l
  induction l with
  | nil => intro x _; simp [insSet]
  | cons z zs ih =>
    intro x hp
    rcases List.pairwise_cons.mp hp with ⟨hz, hzs⟩
    simp only [insSet]
    split_ifs with h1 h2
    · refine List.pairwise_cons.mpr ⟨?_, hp⟩
      intro y hy
      rcases List.mem_cons.mp hy with rfl | hy'
      · exact h1
      · exact lt_trans h1 (hz y hy')
    · exact hp
    · refine List.pairwise_cons.mpr ⟨?_, ih x hzs⟩
      intro y hy
      rcases (mem_insSet zs x y).mp hy with rfl | hy'
      · omega
      · exact hz y hy'

theorem sortedDates_pairwise (l : List Int) : List.Pairwise (· < ·) (sortedDates l) := by
  induction l with
  | nil => simp [sortedDates]
  | cons a t ih => exact pairwise_insSet _ a ih

theorem mem_sortedDates (l : List Int) (x : Int) : x ∈ sortedDates l ↔ x ∈ l := by
  induction l with
  | nil => simp [sortedDates]
  | cons a t ih =>
    show x ∈ insSet a (sortedDates t) ↔ _
    rw [mem_insSet, ih]
    simp [List.mem_cons]

theorem sortedDates_nodup (l : List Int) : (sortedDates l).Nodup :=
  (sortedDates_pairwise l).imp (fun h => ne_of_lt h)

theorem sortedDates_length (l : List Int) : (sortedDates l).length = l.toFinset.card := by
  have h1 : (sortedDates l).toFinset = l.toFinset := by
    ext x
    simp [List.mem_toFinset, mem_sortedDates]
  rw [← h1, List.toFinset_card_of_nodup (sortedDates_nodup l)]

/-! ### Lemmas about the streak walk -/

theorem runsFrom_ne_nil : ∀ (ds : List Int) (prev : Int) (cur : Nat),
    runsFrom prev cur ds ≠ [] := by
  intro ds
  induction ds with
  | nil => intro prev cur; simp [runsFrom]
  | cons d ds' ih =>
    intro prev cur
    simp only [runsFrom]
    split_ifs
    · exact ih d (cur + 1)
    · simp

theorem cur_le_listMax_runsFrom : ∀ (ds : List Int) (prev : Int) (cur : Nat),
    cur ≤ listMax (runsFrom prev cur ds) := by
  intro ds
  induction ds with
  | nil => intro prev cur; simp [runsFrom, listMax]
  | cons d ds' ih =>
    intro prev cur
    simp only [runsFrom]
    split_ifs
    · exact Nat.le_trans (Nat.le_succ cur) (ih d (cur + 1))
    · exact Nat.le_max_left _ _

theorem listMax_runsFrom_le : ∀ (ds : List Int) (prev : Int) (cur : Nat),
    listMax (runsFrom prev cur ds) ≤ cur + ds.length := by
  intro ds
  induction ds with
  | nil => intro prev cur; simp [runsFrom, listMax]
  | cons d ds' ih =>
    intro prev cur
    simp only [runsFrom]
    split_ifs
    · have := ih d (cur + 1)
      simp only [List.length_cons]
      omega
    · show max cur (listMax (runsFrom d 1 ds')) ≤ _
      have := ih d 1
      simp only [List.length_cons]
      exact Nat.max_le.mpr ⟨by omega, by omega⟩

theorem run_exists_of_cur (full : List Int) (prev : Int) (cur : Nat)
    (hcur : ∀ i : Nat, i < cur → (prev - (i : ℤ)) ∈ full) :
    ∃ d : ℤ, ∀ i : Nat, i < cur → (d + (i : ℤ)) ∈ full := by
  refine ⟨prev - (cur : ℤ) + 1, ?_⟩
  intro i hi
  have h2 := hcur (cur - 1 - i) (by omega)
  have he : prev - (cur : ℤ) + 1 + (i : ℤ) = prev - ((cur - 1 - i : Nat) : ℤ) := by omega
  rw [he]
  exact h2

theorem runsFrom_runs_exist (full : List Int) :
    ∀ (ds : List Int) (prev : Int) (cur : Nat),
      (∀ i : Nat, i < cur → (prev - (i : ℤ)) ∈ full) →
      (∀ x ∈ ds, x ∈ full) →
      ∀ m ∈ runsFrom prev cur ds, ∃ d : ℤ, ∀ i : Nat, i < m → (d + (i : ℤ)) ∈ full := by
  intro ds
  induction ds with
  | nil =>
    intro prev cur hcur _ m hm
    simp [runsFrom] at hm
    subst hm
    exact run_exists_of_cur full prev m hcur
  | cons e ds' ih =>
    intro prev cur hcur hds m hm
    simp only [runsFrom] at hm
    by_cases hbe : e - prev = 1
    · rw [if_pos hbe] at hm
      refine ih e (cur + 1) ?_ (fun x hx => hds x (List.mem_cons_of_mem _ hx)) m hm
      intro i hi
      rcases Nat.eq_zero_or_pos i with rfl | hip
      · simpa using hds e (List.mem_cons_self _ _)
      · have h2 := hcur (i - 1) (by omega)
        have he : e - (i : ℤ) = prev - ((i - 1 : Nat) : ℤ) := by omega
        rw [he]
        exact h2
    · rw [if_neg hbe] at hm
      rcases List.mem_cons.mp hm with rfl | hm'
      · exact run_exists_of_cur full prev m hcur
      · refine ih e 1 ?_ (fun x hx => hds x (List.mem_cons_of_mem _ hx)) m hm'
        intro i hi
        have hi0 : i = 0 := by omega
        subst hi0
        simpa using hds e (List.mem_cons_self _ _)

theorem runsFrom_max_bound :
    ∀ (ds : List Int) (prev : Int) (cur : Nat), 1 ≤ cur →
      List.Pairwise (· < ·) (prev :: ds) →
      ∀ (n : Nat) (d : ℤ), (∀ i : Nat, i < n → (d + (i : ℤ)) ∈ prev :: ds) →
      (d = prev → n + cur - 1 ≤ listMax (runsFrom prev cur ds)) ∧
      (d ≠ prev → n ≤ listMax (runsFrom prev cur ds)) := by
  intro ds
  induction ds with
  | nil =>
    intro prev cur hcur _ n d h
    constructor
    · intro hd
      subst hd
      have hn1 : n ≤ 1 := by
        by_contra hn
        have h1 := h 1 (by omega)
        simp at h1
      simp [runsFrom, listMax]
      omega
    · intro hne
      have hn0 : n = 0 := by
        by_contra hn
        have h0 := h 0 (by omega)
        simp at h0
        omega
      omega
  | cons e ds' ih =>
    intro prev cur hcur hp n d h
    have hpe : prev < e := (List.pairwise_cons.mp hp).1 e (List.mem_cons_self _ _)
    have hpall : ∀ y ∈ e :: ds', prev < y := (List.pairwise_cons.mp hp).1
    have hp2 : List.Pairwise (· < ·) (e :: ds') := (List.pairwise_cons.mp hp).2
    have heall : ∀ y ∈ ds', e < y := (List.pairwise_cons.mp hp2).1
    by_cases hbe : e - prev = 1
    · have heq : runsFrom prev cur (e :: ds') = runsFrom e (cur + 1) ds' := by
        simp [runsFrom, hbe]
      rw [heq]
      have hcm : cur ≤ listMax (runsFrom e (cur + 1) ds') :=
        Nat.le_trans (Nat.le_succ cur) (cur_le_listMax_runsFrom ds' e (cur + 1))
      constructor
      · intro hd
        subst hd
        rcases Nat.lt_or_ge n 2 with hn2 | hn2
        · omega
        · have htail : ∀ i : Nat, i < n - 1 → (e + (i : ℤ)) ∈ e :: ds' := by
            intro i hi
            have hh := h (i + 1) (by omega)
            have hei : d + ((i + 1 : Nat) : ℤ) = e + (i : ℤ) := by
              push_cast
              omega
            rw [hei] at hh
            rcases List.mem_cons.mp hh with hcontra | hmem
            · omega
            · exact hmem
          have := (ih e (cur + 1) (by omega) hp2 (n - 1) e htail).1 rfl
          omega
      · intro hne
        rcases Nat.eq_zero_or_pos n with rfl | hn1
        · omega
        · have hd0 := h 0 (by omega)
          simp only [Int.natCast_zero, add_zero] at hd0
          have hdgt : prev < d := by
            rcases List.mem_cons.mp hd0 with rfl | hmem
            · exact absurd rfl hne
            · exact hpall d hmem
          have htail : ∀ i : Nat, i < n → (d + (i : ℤ)) ∈ e :: ds' := by
            intro i hi
            rcases List.mem_cons.mp (h i hi) with hcontra | hmem
            · omega
            · exact hmem
          by_cases hde : d = e
          · have := (ih e (cur + 1) (by omega) hp2 n d htail).1 hde
            omega
          · exact (ih e (cur + 1) (by omega) hp2 n d htail).2 hde
    · have heq : runsFrom prev cur (e :: ds') = cur :: runsFrom e 1 ds' := by
        simp [runsFrom, hbe]
      rw [heq]
      have hmax : listMax (cur :: runsFrom e 1 ds') = max cur (listMax (runsFrom e 1 ds')) := rfl
      constructor
      · intro hd
        subst hd
        have hn1 : n ≤ 1 := by
          by_contra hn
          have h1 := h 1 (by omega)
          have he1 : d + ((1 : Nat) : ℤ) = d + 1 := by push_cast; omega
          rw [he1] at h1
          rcases List.mem_cons.mp h1 with hc | hmem
          · omega
          · rcases List.mem_cons.mp hmem with rfl | hmem'
            · omega
            · have := heall _ hmem'
              omega
        have := Nat.le_max_left cur (listMax (runsFrom e 1 ds'))
        rw [hmax]
        omega
      · intro hne
        rcases Nat.eq_zero_or_pos n with rfl | hn1
        · omega
        · have hd0 := h 0 (by omega)
          simp only [Int.natCast_zero, add_zero] at hd0
          have hdgt : prev < d := by
            rcases List.mem_cons.mp hd0 with rfl | hmem
            · exact absurd rfl hne
            · exact hpall d hmem
          have htail : ∀ i : Nat, i < n → (d + (i : ℤ)) ∈ e :: ds' := by
            intro i hi
            rcases List.mem_cons.mp (h i hi) with hcontra | hmem
            · omega
            · exact hmem
          have hrec := Nat.le_max_right cur (listMax (runsFrom e 1 ds'))
          rw [hmax]
          by_cases hde : d = e
          · have := (ih e 1 (le_refl 1) hp2 n d htail).1 hde
            omega
          · have := (ih e 1 (le_refl 1) hp2 n d htail).2 hde
            omega

theorem runsFrom_last_spec (full : List Int) :
    ∀ (ds : List Int) (prev : Int) (cur : Nat),
      List.Pairwise (· < ·) (prev :: ds) →
      (∀ x ∈ prev :: ds, x ∈ full) →
      (∀ i : Nat, i < cur → (prev - (i : ℤ)) ∈ full) →
      (prev - (cur : ℤ)) ∉ full →
      (∀ x ∈ full, prev < x → x ∈ ds) →
      (∀ i : Nat, i < (runsFrom prev cur ds).getLastD 0 →
        ((ds.getLastD prev) - (i : ℤ)) ∈ full) ∧
      ((ds.getLastD prev) - (((runsFrom prev cur ds).getLastD 0 : Nat) : ℤ)) ∉ full := by
  intro ds
  induction ds with
  | nil =>
    intro prev cur _ _ hcur hgap _
    simpa [runsFrom] using ⟨hcur, hgap⟩
  | cons e ds' ih =>
    intro prev cur hp hmem hcur hgap hup
    have hpe : prev < e := (List.pairwise_cons.mp hp).1 e (List.mem_cons_self _ _)
    have hp2 : List.Pairwise (· < ·) (e :: ds') := (List.pairwise_cons.mp hp).2
    have heall : ∀ y ∈ ds', e < y := (List.pairwise_cons.mp hp2).1
    have hmem2 : ∀ x ∈ e :: ds', x ∈ full := fun x hx => hmem x (List.mem_cons_of_mem _ hx)
    have hup2 : ∀ x ∈ full, e < x → x ∈ ds' := by
      intro x hx hex
      have := hup x hx (lt_trans hpe hex)
      rcases List.mem_cons.mp this with rfl | hmem'
      · omega
      · exact hmem'
    rw [List.getLastD_cons]
    by_cases hbe : e - prev = 1
    · have heq : runsFrom prev cur (e :: ds') = runsFrom e (cur + 1) ds' := by
        simp [runsFrom, hbe]
      rw [heq]
      refine ih e (cur + 1) hp2 hmem2 ?_ ?_ hup2
      · intro i hi
        rcases Nat.eq_zero_or_pos i with rfl | hip
        · simpa using hmem e (List.mem_cons_of_mem _ (List.mem_cons_self _ _))
        · have h2 := hcur (i - 1) (by omega)
          have he : e - (i : ℤ) = prev - ((i - 1 : Nat) : ℤ) := by omega
          rw [he]
          exact h2
      · have he : e - ((cur + 1 : Nat) : ℤ) = prev - (cur : ℤ) := by
          push_cast
          omega
        rw [he]
        exact hgap
    · have heq : runsFrom prev cur (e :: ds') = cur :: runsFrom e 1 ds' := by
        simp [runsFrom, hbe]
      rw [heq]
      have hnn : runsFrom e 1 ds' ≠ [] := runsFrom_ne_nil ds' e 1
      have hlast : (cur :: runsFrom e 1 ds').getLastD 0 = (runsFrom e 1 ds').getLastD 0 := by
        rw [List.getLastD_cons]
        exact getLastD_indep _ _ _ hnn
      rw [hlast]
      refine ih e 1 hp2 hmem2 ?_ ?_ hup2
      · intro i hi
        have hi0 : i = 0 := by omega
        subst hi0
        simpa using hmem e (List.mem_cons_of_mem _ (List.mem_cons_self _ _))
      · intro hin
        have he1 : prev < e - ((1 : Nat) : ℤ) := by omega
        have := hup _ hin he1
        rcases List.mem_cons.mp this with hc | hmem'
        · omega
        · have := heall _ hmem'
          omega

/-! ### Unfolding `get_commit_streaks` on non-empty input -/

theorem mem_activeDates (commits : List Commit) (x : Int) :
    x ∈ activeDates commits ↔ x ∈ commitDays commits :=
  mem_sortedDates _ _

theorem gcs_unfold (today : Int) (commits : List Commit) (h : commits ≠ []) :
    ∃ d0 rest, activeDates commits = d0 :: rest ∧
      get_commit_streaks today commits =
        { current_streak :=
            if today - rest.getLastD d0 ≤ 1 then (runsFrom d0 1 rest).getLastD 0 else 0,
          longest_streak := listMax (runsFrom d0 1 rest),
          total_active_days := (d0 :: rest).length,
          last_commit_date := some (rest.getLastD d0) } := by
  have hne : activeDates commits ≠ [] := by
    cases commits with
    | nil => exact absurd rfl h
    | cons c t =>
      have hmem : dayOf c ∈ activeDates (c :: t) :=
        (mem_activeDates _ _).mpr (by simp [commitDays])
      exact List.ne_nil_of_mem hmem
  rcases hd : activeDates commits with _ | ⟨d0, rest⟩
  · exact absurd hd hne
  have hie : commits.isEmpty = false := by
    cases commits with
    | nil => exact absurd rfl h
    | cons c t => rfl
  exact ⟨d0, rest, rfl, by simp [get_commit_streaks, hie, hd]⟩

theorem getLastD_mem {α : Type _} (l : List α) (d : α) (h : l ≠ []) : l.getLastD d ∈ l := by
  cases l with
  | nil => exact absurd rfl h
  | cons x t =>
    rw [List.getLastD_cons]
    exact getLastD_mem_cons t x

theorem streak_core (d0 : Int) (rest : List Int)
    (hp : List.Pairwise (· < ·) (d0 :: rest)) :
    (∀ i : Nat, i < (runsFrom d0 1 rest).getLastD 0 →
      ((rest.getLastD d0) - (i : ℤ)) ∈ d0 :: rest) ∧
    ((rest.getLastD d0) - (((runsFrom d0 1 rest).getLastD 0 : Nat) : ℤ)) ∉ d0 :: rest := by
  refine runsFrom_last_spec (d0 :: rest) rest d0 1 hp (fun x hx => hx) ?_ ?_ ?_
  · intro i hi
    have hi0 : i = 0 := by omega
    subst hi0
    simp
  · intro hin
    rcases List.mem_cons.mp hin with hc | hmem
    · omega
    · have := (List.pairwise_cons.mp hp).1 _ hmem
      omega
  · intro x hx hlt
    rcases List.mem_cons.mp hx with rfl | hmem
    · omega
    · exact hmem

theorem activeDates_pairwise_of (commits : List Commit) (d0 : Int) (rest : List Int)
    (hd : activeDates commits = d0 :: rest) : List.Pairwise (· < ·) (d0 :: rest) := by
  have hp : List.Pairwise (· < ·) (activeDates commits) :=
    sortedDates_pairwise (commitDays commits)
  rwa [hd] at hp

/-- C2: for every non-empty commit list and every evaluation date,
`current_streak` is exactly the length of the last run of consecutive
active calendar dates (ending at the reported last active date) when
`today - lastActiveDate ≤ 1`, is `0` when that difference exceeds one
day, and `longest_streak` does not depend on `today`. -/
theorem claim2_current_streak (today : Int) (commits : List Commit) (h : commits ≠ []) :
    CurrentStreakOk today commits := by
  rcases gcs_unfold today commits h with ⟨d0, rest, hd, hg⟩
  have hp := activeDates_pairwise_of commits d0 rest hd
  refine ⟨rest.getLastD d0, by rw [hg], ?_, ?_, ?_⟩
  · intro hle
    have hcur : (get_commit_streaks today commits).current_streak =
        (runsFrom d0 1 rest).getLastD 0 := by
      rw [hg]
      exact if_pos hle
    rcases streak_core d0 rest hp with ⟨hmem, hnot⟩
    have hL1 : 1 ≤ (runsFrom d0 1 rest).getLastD 0 := by
      by_contra hz
      have h0 : (runsFrom d0 1 rest).getLastD 0 = 0 := by omega
      rw [h0] at hnot
      have hcast : rest.getLastD d0 - ((0 : Nat) : ℤ) = rest.getLastD d0 := by
        push_cast
        ring
      rw [hcast] at hnot
      exact hnot (getLastD_mem_cons rest d0)
    refine ⟨by rw [hcur]; exact hL1, ?_, ?_⟩
    · intro i hi
      rw [hcur] at hi
      have hx := hmem i hi
      rw [← mem_activeDates, hd]
      exact hx
    · rw [hcur]
      intro hin
      have hx : rest.getLastD d0 - ((runsFrom d0 1 rest).getLastD 0 : ℤ) ∈ activeDates commits :=
        (mem_activeDates _ _).mpr hin
      rw [hd] at hx
      exact hnot hx
  · intro hgt
    rw [hg]
    exact if_neg (by omega)
  · intro t2
    rcases gcs_unfold t2 commits h with ⟨d0x, restx, hdx, hgx⟩
    have hinj := hd.symm.trans hdx
    injection hinj with h1 h2
    subst h1
    subst h2
    rw [hg, hgx]

/-- C3: `longest_streak` is the maximum length of a run of consecutive
active calendar dates among the distinct commit dates (0 on empty
input), `total_active_days` is the number of distinct dates, and the
spec instances hold: dates D, D+1, D+2 give longest 3; dates D, D+2 give
longest 1 with two runs. -/
theorem claim3_longest_streak (today : Int) (commits : List Commit) :
    LongestStreakOk today commits := by
  by_cases h : commits = []
  · subst h
    refine ⟨Or.inl rfl, ?_, by simp [get_commit_streaks, commitDays], rfl, rfl, rfl⟩
    intro n d hh
    by_contra hn
    have h0 := hh 0 (by omega)
    simp [commitDays] at h0
  · rcases gcs_unfold today commits h with ⟨d0, rest, hd, hg⟩
    have hp := activeDates_pairwise_of commits d0 rest hd
    have hmemiff : ∀ x : Int, x ∈ d0 :: rest ↔ x ∈ commitDays commits := by
      intro x
      rw [← hd, mem_activeDates]
    refine ⟨?_, ?_, ?_, rfl, rfl, rfl⟩
    · rw [hg]
      show listMax (runsFrom d0 1 rest) = 0 ∨ _
      rcases listMax_mem_or (runsFrom d0 1 rest) with hm | hz
      · right
        exact runsFrom_runs_exist (commitDays commits) rest d0 1
          (by intro i hi
              have hi0 : i = 0 := by omega
              subst hi0
              simpa using (hmemiff d0).mp (List.mem_cons_self _ _))
          (fun x hx => (hmemiff x).mp (List.mem_cons_of_mem _ hx))
          _ hm
      · exact Or.inl hz
    · intro n d hh
      rw [hg]
      show n ≤ listMax (runsFrom d0 1 rest)
      have hh2 : ∀ i : Nat, i < n → (d + (i : ℤ)) ∈ d0 :: rest :=
        fun i hi => (hmemiff _).mpr (hh i hi)
      have hb := runsFrom_max_bound rest d0 1 (le_refl 1) hp n d hh2
      by_cases hde : d = d0
      · have := hb.1 hde
        omega
      · exact hb.2 hde
    · rw [hg]
      show (d0 :: rest).length = _
      rw [← hd]
      exact sortedDates_length _

/-- C9: the streak summary satisfies `current ≤ longest ≤ totalActiveDays`,
on non-empty input `longest ≥ 1` and `last_commit_date` is the maximum
commit date, and on empty input everything is zero with no last date. -/
theorem claim9_streak_invariants (today : Int) (commits : List Commit) :
    StreakInvariantsOk today commits := by
  by_cases h : commits = []
  · subst h
    exact ⟨le_refl 0, le_refl 0, fun hc => absurd rfl hc, fun _ => rfl⟩
  · rcases gcs_unfold today commits h with ⟨d0, rest, hd, hg⟩
    have hp := activeDates_pairwise_of commits d0 rest hd
    refine ⟨?_, ?_, fun _ => ⟨?_, ?_⟩, fun hc => absurd hc h⟩
    · rw [hg]
      show (if today - rest.getLastD d0 ≤ 1 then (runsFrom d0 1 rest).getLastD 0 else 0) ≤
        listMax (runsFrom d0 1 rest)
      split_ifs with hcond
      · exact le_listMax _ _ (getLastD_mem _ 0 (runsFrom_ne_nil rest d0 1))
      · exact Nat.zero_le _
    · rw [hg]
      show listMax (runsFrom d0 1 rest) ≤ (d0 :: rest).length
      have := listMax_runsFrom_le rest d0 1
      simp only [List.length_cons]
      omega
    · rw [hg]
      show 1 ≤ listMax (runsFrom d0 1 rest)
      exact cur_le_listMax_runsFrom rest d0 1
    · refine ⟨rest.getLastD d0, by rw [hg], ?_, ?_⟩
      · have hmm : rest.getLastD d0 ∈ commitDays commits := by
          rw [← mem_activeDates, hd]
          exact getLastD_mem_cons rest d0
        rcases List.mem_map.mp hmm with ⟨c, hc, hcd⟩
        exact ⟨c, hc, hcd⟩
      · intro c hc
        have hmm : dayOf c ∈ d0 :: rest := by
          rw [← hd]
          exact (mem_activeDates _ _).mpr (List.mem_map_of_mem _ hc)
        have hple : List.Pairwise (fun a b : ℤ => id a ≤ id b) (d0 :: rest) :=
          hp.imp (fun hab => le_of_lt hab)
        simpa using getLastD_key_max id rest d0 hple _ hmm

theorem claim2_witness : CurrentStreakOk 0 [mkCommit [] 0] :=
  claim2_current_streak 0 [mkCommit [] 0] (by simp)

theorem claim3_witness : LongestStreakOk 3 [mkCommit [] 5] :=
  claim3_longest_streak 3 [mkCommit [] 5]

theorem claim9_witness : StreakInvariantsOk 2 [mkCommit [] 1] :=
  claim9_streak_invariants 2 [mkCommit [] 1]

/-! ### Temporal bucket lemmas -/

theorem weekday_lt (t : Timestamp) : weekday t < 7 := by
  unfold weekday
  have h1 : 0 ≤ (t.naive.day - 1) % 7 := Int.emod_nonneg _ (by omega)
  have h2 : (t.naive.day - 1) % 7 < 7 := Int.emod_lt_of_pos _ (by omega)
  omega

theorem sum_countP_range (n : Nat) (f : Commit → Nat) (hf : ∀ c, f c < n) :
    ∀ l : List Commit,
      ((List.range n).map (fun i => l.countP (fun c => f c == i))).sum = l.length := by
  intro l
  induction l with
  | nil => simp
  | cons c t ih =>
    simp only [List.countP_cons]
    rw [sum_map_add (List.range n) (fun i => t.countP (fun c' => f c' == i))
      (fun i => if f c == i then 1 else 0)]
    rw [ih, indicator_sum_one (f c) n (hf c)]
    simp

/-- C5: `get_weekly_activity` emits exactly the seven Monday-first
buckets in order and `get_hourly_activity` exactly the 24 hour buckets
in ascending order (zero-count buckets included), each bucketing's
counts sum to the input length, and on empty input every percentage is
0 rather than a division error. -/
theorem claim5_temporal_buckets (commits : List Commit) : WeeklyHourlyOk commits := by
  refine ⟨rfl, rfl, ?_, ?_, ?_⟩
  · have h := sum_countP_range 7 (fun c => weekday c.date) (fun c => weekday_lt c.date) commits
    simpa [get_weekly_activity, List.map_map, Function.comp] using h
  · have h := sum_countP_range 24 (fun c => c.date.naive.hour.val)
      (fun c => c.date.naive.hour.isLt) commits
    simpa [get_hourly_activity, List.map_map, Function.comp] using h
  · intro h
    subst h
    exact ⟨by decide, by decide⟩

theorem claim5_witness : WeeklyHourlyOk [mkCommit [] 3] :=
  claim5_temporal_buckets [mkCommit [] 3]

/-! ### Counter lemmas (`bumpCount`, `authorCounts`) -/

theorem bump_keys (a : List Char) :
    ∀ l : List (List Char × Nat), (bumpCount a l).map Prod.fst =
      if a ∈ l.map Prod.fst then l.map Prod.fst else l.map Prod.fst ++ [a] := by
  intro l
  induction l with
  | nil => simp [bumpCount]
  | cons q rest ih =>
    simp only [bumpCount]
    by_cases hq : q.1 = a
    · rw [if_pos hq]
      have hmem : a ∈ (q :: rest).map Prod.fst := by
        simp only [List.map_cons, List.mem_cons]
        exact Or.inl hq.symm
      rw [if_pos hmem]
      simp
    · rw [if_neg hq]
      simp only [List.map_cons]
      rw [ih]
      by_cases hmem : a ∈ rest.map Prod.fst
      · rw [if_pos hmem, if_pos (List.mem_cons.mpr (Or.inr hmem))]
      · have hnot : a ∉ q.1 :: rest.map Prod.fst := by
          rw [List.mem_cons]
          rintro (h1 | h2)
          · exact hq h1.symm
          · exact hmem h2
        rw [if_neg hmem, if_neg hnot]
        simp

theorem bump_nodup (a : List Char) (l : List (List Char × Nat))
    (h : (l.map Prod.fst).Nodup) : ((bumpCount a l).map Prod.fst).Nodup := by
  rw [bump_keys]
  split_ifs with hmem
  · exact h
  · simp [List.nodup_append, h, hmem]

theorem bump_mem_keys (a b : List Char) (l : List (List Char × Nat)) :
    b ∈ (bumpCount a l).map Prod.fst ↔ b ∈ l.map Prod.fst ∨ b = a := by
  rw [bump_keys]
  split_ifs with hm
  · constructor
    · exact Or.inl
    · rintro (h | rfl)
      · exact h
      · exact hm
  · simp [List.mem_append]

theorem bump_entry (a : List Char) (g : List Char → Nat) :
    ∀ l : List (List Char × Nat), (l.map Prod.fst).Nodup →
      (∀ p ∈ l, p.2 = g p.1) → (a ∉ l.map Prod.fst → g a = 0) →
      ∀ p ∈ bumpCount a l, p.2 = if p.1 = a then g p.1 + 1 else g p.1 := by
  intro l
  induction l with
  | nil =>
    intro _ _ hg0 p hp
    simp only [bumpCount, List.mem_singleton] at hp
    subst hp
    simp [hg0 (by simp)]
  | cons q rest ih =>
    intro hnd hval hg0 p hp
    have hnd' : (q.1 :: rest.map Prod.fst).Nodup := by simpa using hnd
    simp only [bumpCount] at hp
    by_cases hq : q.1 = a
    · rw [if_pos hq] at hp
      rcases List.mem_cons.mp hp with rfl | hmem
      · have hpa : ((q.1, q.2 + 1) : List Char × Nat).1 = a := hq
        rw [if_pos hpa]
        have := hval q (List.mem_cons_self _ _)
        simpa using by omega
      · have hanr : a ∉ rest.map Prod.fst := by
          have hq1 : q.1 ∉ rest.map Prod.fst := (List.nodup_cons.mp hnd').1
          rwa [hq] at hq1
        have hpa : p.1 ≠ a := by
          intro hh
          exact hanr (hh ▸ List.mem_map_of_mem Prod.fst hmem)
        rw [if_neg hpa]
        exact hval p (List.mem_cons_of_mem _ hmem)
    · rw [if_neg hq] at hp
      rcases List.mem_cons.mp hp with rfl | hmem
      · rw [if_neg hq]
        exact hval p (List.mem_cons_self _ _)
      · refine ih (List.nodup_cons.mp hnd').2
          (fun p' hp' => hval p' (List.mem_cons_of_mem _ hp')) ?_ p hmem
        intro hna
        refine hg0 ?_
        simp only [List.map_cons, List.mem_cons]
        rintro (h1 | h2)
        · exact hq h1.symm
        · exact hna h2

theorem foldl_bump_counts :
    ∀ (cs : List Commit) (acc : List (List Char × Nat)) (g : List Char → Nat),
      (acc.map Prod.fst).Nodup →
      (∀ p ∈ acc, p.2 = g p.1) →
      (∀ a, a ∉ acc.map Prod.fst → g a = 0) →
      ∀ p ∈ cs.foldl (fun ac c => bumpCount c.author ac) acc,
        p.2 = g p.1 + cs.countP (fun c => c.author == p.1) := by
  intro cs
  induction cs with
  | nil =>
    intro acc g _ hval _ p hp
    simpa using hval p hp
  | cons c cs' ih =>
    intro acc g hnd hval hg0 p hp
    simp only [List.foldl_cons] at hp
    have hnd' := bump_nodup c.author acc hnd
    have hval' := bump_entry c.author g acc hnd hval (hg0 _)
    have hg0' : ∀ a, a ∉ (bumpCount c.author acc).map Prod.fst →
        (if a = c.author then g a + 1 else g a) = 0 := by
      intro a ha
      have hna : ¬(a ∈ acc.map Prod.fst ∨ a = c.author) := by
        rw [← bump_mem_keys]
        exact ha
      push_neg at hna
      rw [if_neg hna.2]
      exact hg0 a hna.1
    have hstep : p.2 = (if p.1 = c.author then g p.1 + 1 else g p.1) +
        cs'.countP (fun c => c.author == p.1) :=
      ih (bumpCount c.author acc)
        (fun x => if x = c.author then g x + 1 else g x) hnd' hval' hg0' p hp
    rw [List.countP_cons]
    by_cases hpc : p.1 = c.author
    · rw [if_pos hpc] at hstep
      have hbeq : (c.author == p.1) = true := by
        simp [hpc]
      rw [hstep, hbeq]
      simp only [if_true]
      omega
    · rw [if_neg hpc] at hstep
      have hbeq : (c.author == p.1) = false := by
        simp only [beq_eq_false_iff_ne, ne_eq]
        intro hh
        exact hpc hh.symm
      rw [hstep, hbeq]
      simp

theorem foldl_bump_nodup :
    ∀ (cs : List Commit) (acc : List (List Char × Nat)), (acc.map Prod.fst).Nodup →
      ((cs.foldl (fun ac c => bumpCount c.author ac) acc).map Prod.fst).Nodup := by
  intro cs
  induction cs with
  | nil => intro acc h; simpa using h
  | cons c cs' ih =>
    intro acc h
    simp only [List.foldl_cons]
    exact ih _ (bump_nodup _ _ h)

theorem foldl_bump_keys_mem :
    ∀ (cs : List Commit) (acc : List (List Char × Nat)) (a : List Char),
      a ∈ (cs.foldl (fun ac c => bumpCount c.author ac) acc).map Prod.fst ↔
        a ∈ acc.map Prod.fst ∨ a ∈ cs.map (·.author) := by
  intro cs
  induction cs with
  | nil => intro acc a; simp
  | cons c cs' ih =>
    intro acc a
    simp only [List.foldl_cons, List.map_cons, List.mem_cons]
    rw [ih, bump_mem_keys]
    tauto

theorem authorCounts_nodup (cs : List Commit) : ((authorCounts cs).map Prod.fst).Nodup :=
  foldl_bump_nodup cs [] (by simp)

theorem authorCounts_keys (cs : List Commit) (a : List Char) :
    a ∈ (authorCounts cs).map Prod.fst ↔ a ∈ cs.map (·.author) := by
  have h := foldl_bump_keys_mem cs [] a
  simpa [authorCounts] using h

theorem authorCounts_counts (cs : List Commit) :
    ∀ p ∈ authorCounts cs, p.2 = cs.countP (fun c => c.author == p.1) := by
  intro p hp
  have h := foldl_bump_counts cs [] (fun _ => 0) (by simp) (by simp) (fun a _ => rfl) p hp
  simpa using h

theorem bump_sum (a : List Char) :
    ∀ l : List (List Char × Nat),
      ((bumpCount a l).map Prod.snd).sum = (l.map Prod.snd).sum + 1 := by
  intro l
  induction l with
  | nil => simp [bumpCount]
  | cons q rest ih =>
    simp only [bumpCount]
    split_ifs with hq
    · simp
      omega
    · simp only [List.map_cons, List.sum_cons, ih]
      omega

theorem foldl_bump_sum :
    ∀ (cs : List Commit) (acc : List (List Char × Nat)),
      ((cs.foldl (fun ac c => bumpCount c.author ac) acc).map Prod.snd).sum =
        (acc.map Prod.snd).sum + cs.length := by
  intro cs
  induction cs with
  | nil => intro acc; simp
  | cons c cs' ih =>
    intro acc
    simp only [List.foldl_cons, List.length_cons]
    rw [ih, bump_sum]
    omega

theorem authorCounts_sum (cs : List Commit) :
    ((authorCounts cs).map Prod.snd).sum = cs.length := by
  have h := foldl_bump_sum cs []
  simpa [authorCounts] using h

/-! ### First-seen key ordering and the stable descending sort -/

theorem firstIdx_of_head_new (pre : List Commit) (c : Commit) (cs' : List Commit)
    (hnot : c.author ∉ pre.map (·.author)) :
    firstIdx (pre ++ c :: cs') c.author = pre.length := by
  unfold firstIdx
  rw [findIdx_append_none]
  · rw [List.findIdx_cons]
    simp
  · intro x hx
    simp only [beq_eq_false_iff_ne, ne_eq]
    intro hh
    exact hnot (hh ▸ List.mem_map_of_mem (·.author) hx)

theorem foldl_bump_firstSeen (full : List Commit) :
    ∀ (cs pre : List Commit), full = pre ++ cs →
      ∀ acc : List (List Char × Nat),
        (∀ a, a ∈ acc.map Prod.fst ↔ a ∈ pre.map (·.author)) →
        List.Pairwise (fun a b => firstIdx full a < firstIdx full b) (acc.map Prod.fst) →
        (∀ a ∈ acc.map Prod.fst, firstIdx full a < pre.length) →
        List.Pairwise (fun a b => firstIdx full a < firstIdx full b)
          ((cs.foldl (fun ac c => bumpCount c.author ac) acc).map Prod.fst) := by
  intro cs
  induction cs with
  | nil =>
    intro pre _ acc _ hpair _
    simpa using hpair
  | cons c cs' ih =>
    intro pre heq acc hkeys hpair hbound
    simp only [List.foldl_cons]
    have heq' : full = (pre ++ [c]) ++ cs' := by
      rw [heq, List.append_assoc]
      rfl
    refine ih (pre ++ [c]) heq' (bumpCount c.author acc) ?_ ?_ ?_
    · intro a
      rw [bump_mem_keys, hkeys]
      simp [List.mem_append]
    · by_cases hc : c.author ∈ acc.map Prod.fst
      · rw [bump_keys, if_pos hc]
        exact hpair
      · rw [bump_keys, if_neg hc]
        rw [List.pairwise_append]
        refine ⟨hpair, List.pairwise_singleton _ _, ?_⟩
        intro x hx y hy
        have hy' : y = c.author := by simpa using hy
        subst hy'
        have hnew : c.author ∉ pre.map (·.author) := fun hh => hc ((hkeys _).mpr hh)
        have hfc : firstIdx full c.author = pre.length := by
          rw [heq]
          exact firstIdx_of_head_new pre c cs' hnew
        rw [hfc]
        exact hbound x hx
    · intro a ha
      rcases (bump_mem_keys _ _ _).mp ha with hmem | hac
      · have := hbound a hmem
        simp only [List.length_append, List.length_singleton]
        omega
      · by_cases hc : a ∈ acc.map Prod.fst
        · have := hbound a hc
          simp only [List.length_append, List.length_singleton]
          omega
        · have hnew : a ∉ pre.map (·.author) := fun hh => hc ((hkeys _).mpr hh)
          have hfc : firstIdx full a = pre.length := by
            rw [heq, hac]
            rw [hac] at hnew
            exact firstIdx_of_head_new pre c cs' hnew
          rw [hfc]
          simp only [List.length_append, List.length_singleton]
          omega

theorem authorCounts_firstSeen (cs : List Commit) :
    List.Pairwise (fun a b => firstIdx cs a < firstIdx cs b)
      ((authorCounts cs).map Prod.fst) := by
  have h := foldl_bump_firstSeen cs cs [] rfl [] (by simp) (by simp) (by simp)
  simpa [authorCounts] using h

theorem authorCounts_pairwise_fI (cs : List Commit) :
    List.Pairwise (fun p q : List Char × Nat =>
      firstIdx cs p.1 < firstIdx cs q.1) (authorCounts cs) := by
  have h := authorCounts_firstSeen cs
  rw [List.pairwise_map] at h
  exact h

theorem mem_insDesc :
    ∀ (l : List (List Char × Nat)) (x z : List Char × Nat),
      z ∈ insDesc x l ↔ z = x ∨ z ∈ l := by
  intro l
  induction l with
  | nil => intro x z; simp [insDesc]
  | cons y ys ih =>
    intro x z
    simp only [insDesc]
    split_ifs with h1
    · simp [List.mem_cons]
    · simp only [List.mem_cons, ih x z]
      tauto

theorem pairwise_insDesc (fI : List Char → Nat) :
    ∀ (l : List (List Char × Nat)) (x : List Char × Nat),
      List.Pairwise (fun p q => q.2 < p.2 ∨ (p.2 = q.2 ∧ fI p.1 < fI q.1)) l →
      (∀ y ∈ l, fI y.1 < fI x.1) →
      List.Pairwise (fun p q => q.2 < p.2 ∨ (p.2 = q.2 ∧ fI p.1 < fI q.1)) (insDesc x l) := by
  intro l
  induction l with
  | nil => intro x _ _; simp [insDesc]
  | cons y ys ih =>
    intro x hp hfi
    rcases List.pairwise_cons.mp hp with ⟨hy, hys⟩
    simp only [insDesc]
    split_ifs with h1
    · refine List.pairwise_cons.mpr ⟨?_, hp⟩
      intro z hz
      rcases List.mem_cons.mp hz with rfl | hz'
      · exact Or.inl h1
      · rcases hy z hz' with h | ⟨h, _⟩
        · exact Or.inl (by omega)
        · exact Or.inl (by omega)
    · refine List.pairwise_cons.mpr ⟨?_, ih x hys (fun z hz => hfi z (List.mem_cons_of_mem _ hz))⟩
      intro z hz
      rcases (mem_insDesc ys x z).mp hz with rfl | hz'
      · rcases Nat.lt_or_ge z.2 y.2 with hlt | hge
        · exact Or.inl hlt
        · have hzy : z.2 = y.2 := by omega
          exact Or.inr ⟨hzy.symm, hfi y (List.mem_cons_self _ _)⟩
      · exact hy z hz'

theorem foldl_insDesc_pairwise (fI : List Char → Nat) :
    ∀ (rest acc : List (List Char × Nat)),
      List.Pairwise (fun p q => q.2 < p.2 ∨ (p.2 = q.2 ∧ fI p.1 < fI q.1)) acc →
      (∀ y ∈ acc, ∀ x ∈ rest, fI y.1 < fI x.1) →
      List.Pairwise (fun p q => fI p.1 < fI q.1) rest →
      List.Pairwise (fun p q => q.2 < p.2 ∨ (p.2 = q.2 ∧ fI p.1 < fI q.1))
        (rest.foldl (fun a x => insDesc x a) acc) := by
  intro rest
  induction rest with
  | nil => intro acc hacc _ _; simpa using hacc
  | cons x rest' ih =>
    intro acc hacc hcross hrest
    simp only [List.foldl_cons]
    rcases List.pairwise_cons.mp hrest with ⟨hx, hrest'⟩
    refine ih (insDesc x acc)
      (pairwise_insDesc fI acc x hacc (fun y hy => hcross y hy x (List.mem_cons_self _ _)))
      ?_ hrest'
    intro y hy z hz
    rcases (mem_insDesc acc x y).mp hy with rfl | hy'
    · exact hx z hz
    · exact hcross y hy' z (List.mem_cons_of_mem _ hz)

theorem sortDescByCount_pairwise (fI : List Char → Nat) (l : List (List Char × Nat))
    (h : List.Pairwise (fun p q => fI p.1 < fI q.1) l) :
    List.Pairwise (fun p q => q.2 < p.2 ∨ (p.2 = q.2 ∧ fI p.1 < fI q.1))
      (sortDescByCount l) :=
  foldl_insDesc_pairwise fI l [] (by simp) (by simp) h

theorem insDesc_perm :
    ∀ (l : List (List Char × Nat)) (x : List Char × Nat), (insDesc x l).Perm (x :: l) := by
  intro l
  induction l with
  | nil => intro x; exact List.Perm.refl _
  | cons y ys ih =>
    intro x
    simp only [insDesc]
    split_ifs with h1
    · exact List.Perm.refl _
    · exact ((ih x).cons y).trans (List.Perm.swap x y ys)

theorem foldl_insDesc_perm :
    ∀ (rest acc : List (List Char × Nat)),
      (rest.foldl (fun a x => insDesc x a) acc).Perm (acc ++ rest) := by
  intro rest
  induction rest with
  | nil => intro acc; simp
  | cons x rest' ih =>
    intro acc
    simp only [List.foldl_cons]
    refine (ih (insDesc x acc)).trans ?_
    refine (List.Perm.append_right rest' (insDesc_perm acc x)).trans ?_
    exact List.perm_middle.symm

theorem sortDescByCount_perm (l : List (List Char × Nat)) :
    (sortDescByCount l).Perm l := by
  have h := foldl_insDesc_perm l []
  simpa [sortDescByCount] using h

/-- C4: on non-empty input `get_author_stats` yields exactly one entry
per distinct author (exact, case-sensitive match) with its occurrence
count and `percentage = count / total * 100` where `total` is the input
length, sorted descending by count; the counts sum to `total` and the
list is non-empty. -/
theorem claim4_author_stats (commits : List Commit) (h : commits ≠ []) :
    AuthorStatsOk commits := by
  have hperm := sortDescByCount_perm (authorCounts commits)
  have hfI := authorCounts_pairwise_fI commits
  have hsorted := sortDescByCount_pairwise (firstIdx commits) (authorCounts commits) hfI
  have hkeys_eq : (get_author_stats commits).map (·.author) =
      (sortDescByCount (authorCounts commits)).map Prod.fst := by
    unfold get_author_stats
    rw [List.map_map]
    rfl
  have hcnts_eq : (get_author_stats commits).map (·.commits) =
      (sortDescByCount (authorCounts commits)).map Prod.snd := by
    unfold get_author_stats
    rw [List.map_map]
    rfl
  refine ⟨?_, ?_, ?_, ?_, ?_, ?_, ?_⟩
  · intro he
    have hacne : authorCounts commits ≠ [] := by
      cases commits with
      | nil => exact absurd rfl h
      | cons c t =>
        intro he2
        have hm : c.author ∈ (authorCounts (c :: t)).map Prod.fst :=
          (authorCounts_keys _ _).mpr (by simp)
        rw [he2] at hm
        simp at hm
    have hs : sortDescByCount (authorCounts commits) = [] := by
      have hlen := congrArg List.length he
      simp [get_author_stats] at hlen
      exact hlen
    rw [hs] at hperm
    exact hacne (List.perm_nil.mp hperm.symm)
  · rw [hcnts_eq]
    exact ((hperm.map Prod.snd).sum_eq).trans (authorCounts_sum commits)
  · unfold get_author_stats
    rw [List.pairwise_map]
    exact hsorted.imp (fun hpq => by
      rcases hpq with h1 | ⟨h1, _⟩
      · exact le_of_lt h1
      · exact le_of_eq h1.symm)
  · rw [hkeys_eq]
    exact ((hperm.map Prod.fst).nodup_iff).mpr (authorCounts_nodup commits)
  · intro a
    rw [hkeys_eq, (hperm.map Prod.fst).mem_iff]
    exact authorCounts_keys commits a
  · intro st hst
    rcases List.mem_map.mp hst with ⟨p, hp, rfl⟩
    exact authorCounts_counts commits p (hperm.mem_iff.mp hp)
  · intro st hst
    rcases List.mem_map.mp hst with ⟨p, hp, rfl⟩
    rfl

/-- C8: among authors with equal commit counts, `get_author_stats`
orders entries by the index of each author's first occurrence in the
input list (stable first-seen tie-break). -/
theorem claim8_tie_break (commits : List Commit)
    (i j : Fin (get_author_stats commits).length) (hij : i < j)
    (hc : ((get_author_stats commits).get i).commits =
      ((get_author_stats commits).get j).commits) :
    firstIdx commits (((get_author_stats commits).get i).author) <
      firstIdx commits (((get_author_stats commits).get j).author) := by
  have hfI := authorCounts_pairwise_fI commits
  have hsorted := sortDescByCount_pairwise (firstIdx commits) (authorCounts commits) hfI
  have hout : List.Pairwise (fun s t : AuthorStat =>
      t.commits < s.commits ∨
        (s.commits = t.commits ∧ firstIdx commits s.author < firstIdx commits t.author))
      (get_author_stats commits) := by
    unfold get_author_stats
    rw [List.pairwise_map]
    exact hsorted
  have hij' := List.pairwise_iff_get.mp hout i j hij
  rcases hij' with hlt | ⟨_, hfi⟩
  · omega
  · exact hfi

theorem claim4_witness : AuthorStatsOk [mkCommit ['a'] 0, mkCommit ['b'] 1, mkCommit ['a'] 2] :=
  claim4_author_stats [mkCommit ['a'] 0, mkCommit ['b'] 1, mkCommit ['a'] 2] (by simp)

theorem claim8_witness :
    firstIdx [mkCommit ['b'] 0, mkCommit ['a'] 1]
        (((get_author_stats [mkCommit ['b'] 0, mkCommit ['a'] 1]).get ⟨0, by decide⟩).author) <
      firstIdx [mkCommit ['b'] 0, mkCommit ['a'] 1]
        (((get_author_stats [mkCommit ['b'] 0, mkCommit ['a'] 1]).get ⟨1, by decide⟩).author) :=
  claim8_tie_break [mkCommit ['b'] 0, mkCommit ['a'] 1] ⟨0, by decide⟩ ⟨1, by decide⟩
    (by decide) (by decide)

/-! ### Filter-stage lemmas -/

theorem fca_eq_filter (commits : List Commit) (a : List Char) :
    filter_commits_by_author commits a =
      commits.filter (fun c => containsSub (lowerStr c.author) (lowerStr a)) := rfl

theorem fcd_eq_filter (commits : List Commit) (s u : Option NaiveTime) :
    filter_commits_by_date commits s u = commits.filter (keepD s u) := by
  cases s with
  | none =>
    cases u with
    | none =>
      have h1 : commits.filter (keepD none none) = commits := by
        rw [show keepD none none = (fun _ => true) from funext (fun c => by simp [keepD])]
        exact List.filter_true _
      simpa [filter_commits_by_date] using h1.symm
    | some ud =>
      show commits.filter _ = _
      apply List.filter_congr
      intro c _
      simp [keepD]
  | some sd =>
    cases u with
    | none =>
      show commits.filter _ = _
      apply List.filter_congr
      intro c _
      simp [keepD]
    | some ud =>
      show (commits.filter _).filter _ = _
      rw [List.filter_filter]
      apply List.filter_congr
      intro c _
      simp only [keepD]
      exact Bool.and_comm _ _

/-- C6: the filter stage applied as in cli.py (date filter, then author
filter when given) returns exactly the order-preserving subsequence of
records satisfying the conjunction of the supplied predicates, and with
no filters supplied it leaves the input unchanged. -/
theorem claim6_filter_stage (commits : List Commit) (s u : Option NaiveTime)
    (a : Option (List Char)) :
    filterPipeline commits s u a = commits.filter (keepC s u a) ∧
    List.Sublist (filterPipeline commits s u a) commits ∧
    filterPipeline commits none none none = commits := by
  have hmain : filterPipeline commits s u a = commits.filter (keepC s u a) := by
    cases a with
    | none =>
      show filter_commits_by_date commits s u = _
      rw [fcd_eq_filter]
      apply List.filter_congr
      intro c _
      simp [keepC]
    | some x =>
      show filter_commits_by_author (filter_commits_by_date commits s u) x = _
      rw [fca_eq_filter, fcd_eq_filter, List.filter_filter]
      apply List.filter_congr
      intro c _
      exact Bool.and_comm _ _
  refine ⟨hmain, ?_, rfl⟩
  rw [hmain]
  exact List.filter_sublist _

/-- C10: the date filter and the author filter commute: applying them in
either order yields the same sequence. -/
theorem claim10_filters_commute (commits : List Commit) (s u : Option NaiveTime)
    (a : List Char) :
    filter_commits_by_date (filter_commits_by_author commits a) s u =
      filter_commits_by_author (filter_commits_by_date commits s u) a := by
  simp only [fca_eq_filter, fcd_eq_filter, List.filter_filter]
  apply List.filter_congr
  intro c _
  exact Bool.and_comm _ _

/-! ### Chronological sort and snapshot assembly -/

theorem mem_insAsc :
    ∀ (l : List Commit) (x z : Commit), z ∈ insAsc x l ↔ z = x ∨ z ∈ l := by
  intro l
  induction l with
  | nil => intro x z; simp [insAsc]
  | cons y ys ih =>
    intro x z
    simp only [insAsc]
    split_ifs with h1
    · simp [List.mem_cons]
    · simp only [List.mem_cons, ih x z]
      tauto

theorem pairwise_insAsc :
    ∀ (l : List Commit) (x : Commit),
      List.Pairwise (fun p q => p.date.utc ≤ q.date.utc) l →
      List.Pairwise (fun p q => p.date.utc ≤ q.date.utc) (insAsc x l) := by
  intro l
  induction l with
  | nil => intro x _; simp [insAsc]
  | cons y ys ih =>
    intro x hp
    rcases List.pairwise_cons.mp hp with ⟨hy, hys⟩
    simp only [insAsc]
    split_ifs with h1
    · refine List.pairwise_cons.mpr ⟨?_, hp⟩
      intro z hz
      rcases List.mem_cons.mp hz with rfl | hz'
      · exact le_of_lt h1
      · exact le_trans (le_of_lt h1) (hy z hz')
    · refine List.pairwise_cons.mpr ⟨?_, ih x hys⟩
      intro z hz
      rcases (mem_insAsc ys x z).mp hz with rfl | hz'
      · omega
      · exact hy z hz'

theorem foldl_insAsc_pairwise :
    ∀ (rest acc : List Commit),
      List.Pairwise (fun p q => p.date.utc ≤ q.date.utc) acc →
      List.Pairwise (fun p q => p.date.utc ≤ q.date.utc)
        (rest.foldl (fun a x => insAsc x a) acc) := by
  intro rest
  induction rest with
  | nil => intro acc h; simpa using h
  | cons x rest' ih =>
    intro acc h
    simp only [List.foldl_cons]
    exact ih _ (pairwise_insAsc acc x h)

theorem sortByDate_pairwise (l : List Commit) :
    List.Pairwise (fun p q => p.date.utc ≤ q.date.utc) (sortByDate l) :=
  foldl_insAsc_pairwise l [] (by simp)

theorem filterStage_sublist (commits : List Commit) (s u : Option NaiveTime)
    (a : Option (List Char)) : List.Sublist (filterStage commits s u a) commits := by
  have hcs1 : List.Sublist
      (if s.isSome || u.isSome then filter_commits_by_date commits s u else commits)
      commits := by
    split_ifs
    · rw [fcd_eq_filter]
      exact List.filter_sublist _
    · exact List.Sublist.refl _
  rcases hA : authorTruthy a with _ | x
  · simpa [filterStage, hA] using hcs1
  · simp only [filterStage, hA]
    exact List.Sublist.trans (List.filter_sublist _) hcs1

theorem get_commit_stats_commits (parsed : List Commit) (sd : StatsData)
    (h : get_commit_stats parsed = some sd) : sd.commits = sortByDate parsed := by
  unfold get_commit_stats at h
  rcases hs : sortByDate parsed with _ | ⟨c, rest⟩
  · rw [hs] at h
    simp at h
  · rw [hs] at h
    injection h with h2
    rw [← h2]

theorem mem_takeTop (top : Option Nat) (l : List AuthorStat) (st : AuthorStat)
    (h : st ∈ takeTop top l) : st ∈ l := by
  rcases top with _ | t
  · exact h
  · rcases t with _ | t'
    · exact h
    · exact List.take_subset _ _ h

theorem snapshot_consistent_build (today : Int) (top : Option Nat) (sd : StatsData)
    (c2 : Commit) (rest2 : List Commit)
    (hsorted : List.Pairwise (fun p q : Commit => p.date.utc ≤ q.date.utc) (c2 :: rest2)) :
    SnapshotConsistent today top (c2 :: rest2)
      (buildSnapshot today top (recomputeStats sd (c2 :: rest2))) := by
  refine ⟨rfl, rfl, rfl, rfl, rfl, rfl, ?_, ?_, ?_, ?_, ?_⟩
  · refine ⟨c2, List.mem_cons_self _ _, rfl, ?_⟩
    intro c' hc'
    rcases List.mem_cons.mp hc' with rfl | hc''
    · exact le_refl _
    · exact (List.pairwise_cons.mp hsorted).1 c' hc''
  · exact ⟨rest2.getLastD c2, getLastD_mem_cons rest2 c2, rfl,
      getLastD_key_max (fun c => c.date.utc) rest2 c2 hsorted⟩
  · intro st hst
    have hst2 := mem_takeTop top _ st hst
    rcases List.mem_map.mp hst2 with ⟨p, _, rfl⟩
    rfl
  · intro b hb
    rcases List.mem_map.mp hb with ⟨i, _, rfl⟩
    simp [recomputeStats]
  · intro b hb
    rcases List.mem_map.mp hb with ⟨i, _, rfl⟩
    simp [recomputeStats]

theorem runStats_some_eq (src : Option (List Commit)) (s u : Option NaiveTime)
    (a : Option (List Char)) (top : Option Nat) (today : Int) (sd : StatsData)
    (hgs : get_commit_stats_opt src = some sd) :
    runStats src s u a top today =
      if filtersOnB s u a && (filterStage sd.commits s u a).isEmpty then
        CliResult.error 1 msgNoMatch
      else
        CliResult.ok (buildSnapshot today top
          (if filtersOnB s u a then recomputeStats sd (filterStage sd.commits s u a)
           else sd)) := by
  unfold runStats
  rw [hgs]

theorem runStats_none_eq (src : Option (List Commit)) (s u : Option NaiveTime)
    (a : Option (List Char)) (top : Option Nat) (today : Int)
    (hgs : get_commit_stats_opt src = none) :
    runStats src s u a top today = CliResult.error 1 msgNoRepo := by
  unfold runStats
  rw [hgs]

/-- C1: whenever at least one filter is supplied and `stats` succeeds,
every field of the snapshot is recomputed from the same filtered record
sequence: first/last commit are its chronological extremes and author,
weekly and hourly percentages all use the filtered length as their
denominator. -/
theorem claim1_snapshot_filtered (parsed : List Commit) (s u : Option NaiveTime)
    (a : Option (List Char)) (top : Option Nat) (today : Int) (snap : Snapshot)
    (hf : filtersOnB s u a = true)
    (hrun : runStats (some parsed) s u a top today = CliResult.ok snap) :
    SnapshotConsistent today top (filterStage (sortByDate parsed) s u a) snap := by
  rcases hgs : get_commit_stats_opt (some parsed) with _ | sd
  · unfold runStats at hrun
    rw [hgs] at hrun
    exact absurd hrun (by simp)
  · rw [runStats_some_eq (some parsed) s u a top today sd hgs] at hrun
    have hsd : sd.commits = sortByDate parsed :=
      get_commit_stats_commits parsed sd (by simpa [get_commit_stats_opt] using hgs)
    rcases hcs : filterStage sd.commits s u a with _ | ⟨c2, rest2⟩
    · rw [hcs, hf] at hrun
      simp at hrun
    · rw [hcs, hf] at hrun
      simp at hrun
      have hsnap : snap = buildSnapshot today top (recomputeStats sd (c2 :: rest2)) :=
        hrun.symm
      subst hsnap
      rw [← hsd, hcs]
      refine snapshot_consistent_build today top sd c2 rest2 ?_
      have hpar : List.Pairwise (fun p q : Commit => p.date.utc ≤ q.date.utc) sd.commits := by
        rw [hsd]
        exact sortByDate_pairwise parsed
      have hsub := filterStage_sublist sd.commits s u a
      rw [hcs] at hsub
      exact List.Pairwise.sublist hsub hpar

/-- C7: with no commits or no repository the command reports one error
outcome; with at least one filter supplied and an empty filtered result
it reports a distinguishable "no matching commits" error; both errors
carry a non-zero exit status, and every run yields either an error or a
snapshot (never a crash). -/
theorem claim7_error_handling (src : Option (List Commit)) (s u : Option NaiveTime)
    (a : Option (List Char)) (top : Option Nat) (today : Int) :
    (get_commit_stats_opt src = none →
      runStats src s u a top today = CliResult.error 1 msgNoRepo) ∧
    (∀ sd, get_commit_stats_opt src = some sd → filtersOnB s u a = true →
      filterStage sd.commits s u a = [] →
      runStats src s u a top today = CliResult.error 1 msgNoMatch) ∧
    msgNoRepo ≠ msgNoMatch ∧
    (∀ code msg, runStats src s u a top today = CliResult.error code msg → code ≠ 0) ∧
    ((∃ code msg, runStats src s u a top today = CliResult.error code msg) ∨
      (∃ snap, runStats src s u a top today = CliResult.ok snap)) := by
  refine ⟨?_, ?_, by decide, ?_, ?_⟩
  · intro h
    exact runStats_none_eq src s u a top today h
  · intro sd hsd hfon hempty
    rw [runStats_some_eq src s u a top today sd hsd, hempty, hfon]
    rfl
  · intro code msg h
    rcases hgs : get_commit_stats_opt src with _ | sd
    · rw [runStats_none_eq src s u a top today hgs] at h
      injection h with h1 _
      omega
    · rw [runStats_some_eq src s u a top today sd hgs] at h
      split_ifs at h
      injection h with h1 _
      omega
  · rcases hgs : get_commit_stats_opt src with _ | sd
    · exact Or.inl ⟨1, msgNoRepo, runStats_none_eq src s u a top today hgs⟩
    · rw [runStats_some_eq src s u a top today sd hgs]
      split_ifs with hcond hfon
      · exact Or.inl ⟨1, msgNoMatch, rfl⟩
      · exact Or.inr ⟨_, rfl⟩
      · exact Or.inr ⟨_, rfl⟩

theorem claim1_witness :
    SnapshotConsistent 5 none
      (filterStage (sortByDate [mkCommit ['a'] 1, mkCommit ['b'] 2]) (some (fromYMD 0)) none none)
      (okSnap (runStats (some [mkCommit ['a'] 1, mkCommit ['b'] 2])
        (some (fromYMD 0)) none none none 5)) :=
  claim1_snapshot_filtered [mkCommit ['a'] 1, mkCommit ['b'] 2] (some (fromYMD 0)) none none
    none 5
    (okSnap (runStats (some [mkCommit ['a'] 1, mkCommit ['b'] 2])
      (some (fromYMD 0)) none none none 5))
    (by decide) rfl

theorem claim7_witness :
    runStats none none none none none 0 = CliResult.error 1 msgNoRepo ∧
    runStats (some [mkCommit ['a'] 0]) (some (fromYMD 100)) none none none 0 =
      CliResult.error 1 msgNoMatch :=
  ⟨(claim7_error_handling none none none none none 0).1 rfl,
   (claim7_error_handling (some [mkCommit ['a'] 0]) (some (fromYMD 100)) none none none 0).2.1
     _ rfl (by decide) (by decide)⟩

end GitStats
